import Mathlib

/-!
Verification of the deno-npm-sync package (sync engine in
packages/deno-npm-sync/src/main.ts and the pnpm catalog resolver module).

Strings are modelled as lists of characters.  The ECMAScript regular
expressions of the source are translated into explicit parsers below; the
translation is justified in the doc comments of the parsers.  Filesystem
reads and package-manager detection are modelled as explicit parameters
(an absent or unparsable file is the value none), matching the design
note of the specification that these are injected external capabilities.
-/

namespace DenoNpmSync

/-- Splits a character list at every dot, the semantics of the
ECMAScript call version.split with separator dot: the result is always
nonempty, an empty input gives one empty segment, and consecutive dots
give empty segments. -/
def splitDots : List Char → List (List Char)
  | [] => [[]]
  | c :: r =>
    if c = '.' then [] :: splitDots r
    else
      match splitDots r with
      | [] => [[c]]
      | s :: ss => (c :: s) :: ss

/-- Joins segments with a dot between them, the semantics of the
ECMAScript call segments.join with separator dot. -/
def joinDots : List (List Char) → List Char
  | [] => []
  | [s] => s
  | s :: r :: t => s ++ '.' :: joinDots (r :: t)

/-- detectVersionPrecision from main.ts: the number of dot-separated
segments of a version string. -/
def detectVersionPrecision (version : List Char) : Nat :=
  (splitDots version).length

/-- formatVersion from main.ts: keep the first p dot-separated segments
of a version string. -/
def formatVersion (version : List Char) (p : Nat) : List Char :=
  joinDots ((splitDots version).take p)

/-- The ECMAScript call range.replace dropping the leading run of
non-digit characters (the regex anchored \D* with global digit class
0-9). -/
def stripLeadingNonDigits (s : List Char) : List Char :=
  s.dropWhile (fun c => !c.isDigit)

/-- Version precision mode of main.ts. -/
inductive Precision
  | auto
  | major
  | minor
  | full
deriving DecidableEq, Repr

/-- Registry kind of main.ts. -/
inductive Registry
  | npm
  | jsr
deriving DecidableEq, Repr

/-- The named capture groups of a successful registry-pattern match:
package name, embedded version, and subpath (empty when the optional
subpath group is absent; the source coalesces an absent group to the
empty string). -/
structure MatchResult where
  name : List Char
  version : List Char
  subpath : List Char
deriving DecidableEq, Repr

/-- One change record of the sync result, {name, oldVersion, newVersion}
in main.ts. -/
structure Update where
  name : List Char
  oldVersion : List Char
  newVersion : List Char
deriving DecidableEq, Repr

/-- The two dependency sections of package.json.  A missing section is
modelled as the empty association list (lookups in it fail, exactly as
optional chaining on an absent object does). -/
structure PackageJson where
  dependencies : List (List Char × List Char)
  devDependencies : List (List Char × List Char)
deriving DecidableEq, Repr

/-- The imports mapping of deno.json, in document order.  Keys of a JSON
object are unique. -/
abbrev ImportMap := List (List Char × List Char)

/-- First-match association-list lookup, the semantics of property
access on a parsed JSON object. -/
def lookupA (n : List Char) (l : List (List Char × List Char)) : Option (List Char) :=
  (l.find? (fun p => p.1 == n)).map (·.2)

/-- Checks the shape digits+ followed by any number of groups of a dot
and digits+, i.e. the version group of both registry regexes: one or
more dot-separated nonempty all-digit segments. -/
def isShape (cs : List Char) : Bool :=
  (splitDots cs).all (fun s => !s.isEmpty && s.all Char.isDigit)

/-- Parses the version-and-subpath tail of a registry specifier, the
part matched by the regex fragment of a version group \d+(\.\d+)*
followed by an optional subpath group of a slash and anything, anchored
at the end.  Since the version group cannot contain a slash and the
subpath group must start with one, the regex (with backtracking)
succeeds exactly when the part before the first slash has the version
shape; the subpath is then the rest from that slash on. -/
def parseVersionSub (r : List Char) : Option (List Char × List Char) :=
  if isShape (r.takeWhile (· != '/')) then
    some (r.takeWhile (· != '/'), r.dropWhile (· != '/'))
  else none

/-- The npm pattern of main.ts: the marker npm and a colon, a nonempty
name group of non-at characters (greedy, hence everything up to the
first at sign, which must exist), an at sign, then version and optional
subpath.  The remainder after the name is nonempty exactly when an at
sign exists, and its first character is then necessarily the at sign,
so the literal at sign of the regex is consumed by taking the tail. -/
def parseNpm (s : List Char) : Option MatchResult :=
  if s.take 4 = "npm:".data then
    let rest := s.drop 4
    let name := rest.takeWhile (· != '@')
    let after := rest.dropWhile (· != '@')
    if name = [] then none
    else if after.head? = some '@' then
      match parseVersionSub after.tail with
      | some (ver, sub) => some ⟨name, ver, sub⟩
      | none => none
    else none
  else none

/-- The jsr pattern of main.ts: the marker jsr and a colon, then a name
group of an at sign, a nonempty scope free of slash and at, a slash and
a nonempty package part free of slash and at, then an at sign, version
and optional subpath.  The two inner character classes exclude both
delimiters, so each part is everything up to the next delimiter, and
the regex demands that this next delimiter be a slash after the scope
and an at sign after the package part; the head tests below check
exactly that. -/
def parseJsr (s : List Char) : Option MatchResult :=
  if s.take 5 = "jsr:@".data then
    let r1 := s.drop 5
    let scope := r1.takeWhile (fun c => c != '/' && c != '@')
    let after1 := r1.dropWhile (fun c => c != '/' && c != '@')
    if scope = [] then none
    else if after1.head? = some '/' then
      let r3 := after1.tail
      let pn := r3.takeWhile (fun c => c != '/' && c != '@')
      let after2 := r3.dropWhile (fun c => c != '/' && c != '@')
      if pn = [] then none
      else if after2.head? = some '@' then
        match parseVersionSub after2.tail with
        | some (ver, sub) => some ⟨'@' :: (scope ++ '/' :: pn), ver, sub⟩
        | none => none
      else none
    else none
  else none

/-- Selects the dialect pattern, mirroring the pattern choice on the
registry argument in processImport. -/
def parseSpecifier (reg : Registry) (s : List Char) : Option MatchResult :=
  match reg with
  | .npm => parseNpm s
  | .jsr => parseJsr s

/-- The registry prefix and colon used when rebuilding a specifier. -/
def regHeader (reg : Registry) : List Char :=
  match reg with
  | .npm => 'n' :: 'p' :: 'm' :: ':' :: []
  | .jsr => 'j' :: 's' :: 'r' :: ':' :: []

/-- The manifest range selected for a package name in processImport:
the development section wins, and in either case the leading non-digit
run of the declared range is stripped. -/
def pkgVersionOf (pkg : PackageJson) (n : List Char) : Option (List Char) :=
  match lookupA n pkg.devDependencies with
  | some d => some (stripLeadingNonDigits d)
  | none =>
    match lookupA n pkg.dependencies with
    | some d => some (stripLeadingNonDigits d)
    | none => none

/-- The final-version computation of processImport for each precision
mode, applied to the candidate (the stripped manifest range) and the
currently embedded version. -/
def finalVersionFor (prec : Precision) (candidate version : List Char) : List Char :=
  match prec with
  | .major => (splitDots candidate).headD candidate
  | .minor => formatVersion candidate 2
  | .full => candidate
  | .auto => formatVersion candidate (detectVersionPrecision version)

/-- processImport from main.ts: match the specifier against the chosen
dialect, look up the manifest range (development section first), bail
out if absent or equal to the embedded version, compute the final
version at the configured precision, bail out if it equals the embedded
version, else return the rebuilt specifier and the change record. -/
def processImport (denoImport : List Char) (reg : Registry) (pkg : PackageJson)
    (prec : Precision) : Option (List Char × Update) :=
  match parseSpecifier reg denoImport with
  | none => none
  | some m =>
    match pkgVersionOf pkg m.name with
    | none => none
    | some c =>
      if c = m.version then none
      else
        let f := finalVersionFor prec c m.version
        if f = m.version then none
        else some (regHeader reg ++ (m.name ++ '@' :: (f ++ m.subpath)), ⟨m.name, m.version, f⟩)

/-- One iteration of the loop over import entries in
syncDenoNpmDependencies: try the npm dialect, on success rewrite and
record; otherwise try the jsr dialect; otherwise leave the value as it
is.  Returns the (possibly new) value and the optional change record. -/
def stepEntry (pkg : PackageJson) (prec : Precision) (v : List Char) :
    List Char × Option Update :=
  match processImport v .npm pkg prec with
  | some (ni, u) => (ni, some u)
  | none =>
    match processImport v .jsr pkg prec with
    | some (ni, u) => (ni, some u)
    | none => (v, none)

/-- The in-memory import map after the loop of syncDenoNpmDependencies:
every entry keeps its key and gets the value stepEntry produces. -/
def syncImports (pkg : PackageJson) (prec : Precision) (imports : ImportMap) : ImportMap :=
  imports.map (fun e => (e.1, (stepEntry pkg prec e.2).1))

/-- The ordered change records accumulated by the loop of
syncDenoNpmDependencies. -/
def syncUpdates (pkg : PackageJson) (prec : Precision) (imports : ImportMap) : List Update :=
  imports.filterMap (fun e => (stepEntry pkg prec e.2).2)

/-- The result record of syncDenoNpmDependencies. -/
structure SyncResult where
  hasUpdates : Bool
  updates : List Update
deriving DecidableEq, Repr

/-- The observable outcome of a successful run: the returned result and
the document written back, none when the file was not rewritten. -/
structure SyncOutcome where
  result : SyncResult
  written : Option ImportMap
deriving DecidableEq, Repr

/-- syncDenoNpmDependencies from main.ts over the injected file
contents.  The two paths are the already resolved paths; an absent file
is none.  The existence checks run in source order (manifest first)
before any entry processing, and the document is written back only when
at least one entry changed. -/
def syncDenoNpmDependencies (pkgPath denoPath : List Char)
    (pkgFile : Option PackageJson) (denoFile : Option ImportMap)
    (prec : Precision) : Except (List Char) SyncOutcome :=
  match pkgFile with
  | none => .error ("package.json not found at: ".data ++ pkgPath)
  | some pkg =>
    match denoFile with
    | none => .error ("deno.json not found at: ".data ++ denoPath)
    | some imports =>
      let ups := syncUpdates pkg prec imports
      .ok ⟨⟨!ups.isEmpty, ups⟩,
           if ups.isEmpty then none else some (syncImports pkg prec imports)⟩

/-! The catalog resolver module. -/

/-- The parsed pnpm-workspace.yaml document: an optional default
catalog and optional named catalogs. -/
structure PnpmWorkspaceYaml where
  catalog : Option (List (List Char × List Char))
  catalogs : Option (List (List Char × List (List Char × List Char)))
deriving DecidableEq, Repr

/-- The ECMAScript trim call: whitespace removed from both ends. -/
def trimChars (s : List Char) : List Char :=
  ((s.dropWhile Char.isWhitespace).reverse.dropWhile Char.isWhitespace).reverse

/-- parseCatalogReference from the resolver module: null unless the
string starts with the literal marker catalog and a colon; the catalog
name is the rest, trimmed, with the empty name mapped to the sentinel
default. -/
def parseCatalogReference (reference : List Char) : Option (List Char) :=
  if reference.take 8 = "catalog:".data then
    let n := trimChars (reference.drop 8)
    some (if n = [] then "default".data else n)
  else none

/-- resolvePnpmCatalog from the resolver module, over the injected
workspace document (none when the file is absent or unparsable, as
readPnpmWorkspaceYaml returns null in both cases). -/
def resolvePnpmCatalog (packageName catalogName : List Char)
    (yaml : Option PnpmWorkspaceYaml) : Option (List Char) :=
  match yaml with
  | none => none
  | some y =>
    if catalogName = "default".data then
      match y.catalog with
      | none => none
      | some cat => lookupA packageName cat
    else
      match y.catalogs with
      | none => none
      | some cats =>
        match (cats.find? (fun p => p.1 == catalogName)).map (·.2) with
        | none => none
        | some bucket => lookupA packageName bucket

/-- resolveVersion from the resolver module.  The active package
manager (detectPackageManager) and the workspace document are injected;
detection yielding null is none.  A non-catalog range passes through
unchanged; a catalog reference resolves only under the pnpm manager. -/
def resolveVersion (version packageName : List Char)
    (packageManager : Option (List Char)) (yaml : Option PnpmWorkspaceYaml) :
    Option (List Char) :=
  match parseCatalogReference version with
  | none => some version
  | some catalogName =>
    if packageManager = some "pnpm".data then
      resolvePnpmCatalog packageName catalogName yaml
    else none

/-- findWorkspaceRoot from the resolver module.  An absolute directory
path is modelled as its component list, innermost component first, so
the filesystem root is the empty list and the parent directory is the
tail.  The injected predicate hasYaml tells whether the workspace
catalog document exists in a directory.  The loop runs while the
current path differs from the root, checking the document at each level
and moving to the parent; it never tests the root itself. -/
def findWorkspaceRoot (hasYaml : List (List Char) → Bool) :
    List (List Char) → Option (List (List Char))
  | [] => none
  | c :: cs => if hasYaml (c :: cs) then some (c :: cs) else findWorkspaceRoot hasYaml cs

/-! Specification-side definition for the precision claim. -/

/-- The final-version computation exactly as the specification words
it: major keeps only the first dot-separated segment, minor keeps the
first two segments (fewer when the candidate has fewer, no padding),
full keeps the candidate unmodified, and auto truncates the candidate
to the number of segments of the currently embedded version. -/
def specFinalVersion (prec : Precision) (candidate embedded : List Char) : List Char :=
  match prec with
  | .major => joinDots ((splitDots candidate).take 1)
  | .minor => joinDots ((splitDots candidate).take 2)
  | .full => candidate
  | .auto => joinDots ((splitDots candidate).take ((splitDots embedded).length))

/-- The guard of the amended idempotence claim: every declared range of
the manifest, once its leading non-digit run is stripped, contains no
slash. -/
def slashFreeCandidates (pkg : PackageJson) : Bool :=
  (pkg.devDependencies ++ pkg.dependencies).all
    (fun p => (stripLeadingNonDigits p.2).all (· != '/'))

/-! Helper lemmas about splitting and joining version segments. -/

theorem splitDots_ne_nil (cs : List Char) : splitDots cs ≠ [] := by
  induction cs with
  | nil => simp [splitDots]
  | cons c r ih =>
    simp only [splitDots]
    split
    · simp
    · split <;> simp

theorem mem_of_mem_splitDots :
    ∀ {cs s : List Char} {c : Char}, s ∈ splitDots cs → c ∈ s → c ∈ cs := by
  intro cs
  induction cs with
  | nil =>
    intro s c hs hc
    simp [splitDots] at hs
    subst hs
    simp at hc
  | cons a r ih =>
    intro s c hs hc
    simp only [splitDots] at hs
    by_cases ha : a = '.'
    · rw [if_pos ha] at hs
      rcases List.mem_cons.mp hs with rfl | hs
      · simp at hc
      · exact List.mem_cons_of_mem _ (ih hs hc)
    · rw [if_neg ha] at hs
      obtain ⟨s0, ss, hsr⟩ := List.exists_cons_of_ne_nil (splitDots_ne_nil r)
      rw [hsr] at hs
      rcases List.mem_cons.mp hs with rfl | hs
      · rcases List.mem_cons.mp hc with rfl | hc
        · exact List.mem_cons_self _ _
        · have hs0 : s0 ∈ splitDots r := by rw [hsr]; exact List.mem_cons_self _ _
          exact List.mem_cons_of_mem _ (ih hs0 hc)
      · have hmem : s ∈ splitDots r := by rw [hsr]; exact List.mem_cons_of_mem _ hs
        exact List.mem_cons_of_mem _ (ih hmem hc)

theorem dot_not_mem_splitDots :
    ∀ {cs s : List Char}, s ∈ splitDots cs → '.' ∉ s := by
  intro cs
  induction cs with
  | nil =>
    intro s hs
    simp [splitDots] at hs
    subst hs
    simp
  | cons a r ih =>
    intro s hs
    simp only [splitDots] at hs
    by_cases ha : a = '.'
    · rw [if_pos ha] at hs
      rcases List.mem_cons.mp hs with rfl | hs
      · simp
      · exact ih hs
    · rw [if_neg ha] at hs
      obtain ⟨s0, ss, hsr⟩ := List.exists_cons_of_ne_nil (splitDots_ne_nil r)
      rw [hsr] at hs
      rcases List.mem_cons.mp hs with rfl | hs
      · intro hmem
        rcases List.mem_cons.mp hmem with h1 | h1
        · exact ha h1.symm
        · have hs0 : s0 ∈ splitDots r := by rw [hsr]; exact List.mem_cons_self _ _
          exact ih hs0 h1
      · have hmem : s ∈ splitDots r := by rw [hsr]; exact List.mem_cons_of_mem _ hs
        exact ih hmem

theorem splitDots_of_not_mem_dot : ∀ {s : List Char}, '.' ∉ s → splitDots s = [s] := by
  intro s
  induction s with
  | nil => intro _; rfl
  | cons c r ih =>
    intro h
    have hc : c ≠ '.' := fun he => h (by simp [he])
    have hr : '.' ∉ r := fun he => h (List.mem_cons_of_mem _ he)
    simp only [splitDots, if_neg hc, ih hr]

theorem splitDots_append_dot :
    ∀ {s m : List Char}, '.' ∉ s → splitDots (s ++ '.' :: m) = s :: splitDots m := by
  intro s
  induction s with
  | nil => intro m _; simp [splitDots]
  | cons c r ih =>
    intro m h
    have hc : c ≠ '.' := fun he => h (by simp [he])
    have hr : '.' ∉ r := fun he => h (List.mem_cons_of_mem _ he)
    have ihr := ih hr (m := m)
    simp only [List.cons_append, splitDots, if_neg hc, List.append_eq] at ihr ⊢
    rw [ihr]

theorem splitDots_joinDots :
    ∀ (l : List (List Char)), l ≠ [] → (∀ s ∈ l, '.' ∉ s) →
      splitDots (joinDots l) = l
  | [], h, _ => absurd rfl h
  | [s], _, hd => by
    simp only [joinDots]
    exact splitDots_of_not_mem_dot (hd s (by simp))
  | s :: r :: t, _, hd => by
    have h1 : '.' ∉ s := hd s (by simp)
    have h2 := splitDots_joinDots (r :: t) (by simp)
      (fun x hx => hd x (List.mem_cons_of_mem _ hx))
    simp only [joinDots, splitDots_append_dot h1, h2]

theorem mem_joinDots :
    ∀ (l : List (List Char)) (c : Char), c ∈ joinDots l →
      c = '.' ∨ ∃ s, s ∈ l ∧ c ∈ s
  | [], c, h => absurd h (by simp [joinDots])
  | [s], c, h => Or.inr ⟨s, by simp, by simpa [joinDots] using h⟩
  | s :: r :: t, c, h => by
    simp only [joinDots, List.mem_append, List.mem_cons] at h
    rcases h with h | h | h
    · exact Or.inr ⟨s, by simp, h⟩
    · exact Or.inl h
    · rcases mem_joinDots (r :: t) c h with h1 | ⟨s1, hs1, hc⟩
      · exact Or.inl h1
      · exact Or.inr ⟨s1, List.mem_cons_of_mem _ hs1, hc⟩

theorem dropWhile_eq_cons_pred {α : Type} {p : α → Bool} {x : α} {t : List α} :
    ∀ {l : List α}, l.dropWhile p = x :: t → p x = false := by
  intro l
  induction l with
  | nil => intro h; simp at h
  | cons a r ih =>
    intro h
    rw [List.dropWhile_cons] at h
    split at h
    · exact ih h
    · rename_i hpa
      injection h with h1 _
      subst h1
      simpa using hpa

theorem dropWhile_shape {α : Type} (p : α → Bool) (l : List α) :
    l.dropWhile p = [] ∨ ∃ x t, l.dropWhile p = x :: t ∧ p x = false := by
  cases h : l.dropWhile p with
  | nil => exact Or.inl rfl
  | cons x t => exact Or.inr ⟨x, t, rfl, dropWhile_eq_cons_pred h⟩

/-! Inversion lemmas for the specifier parsers. -/

theorem parseVersionSub_eq_some {r ver sub : List Char}
    (h : parseVersionSub r = some (ver, sub)) :
    isShape ver = true ∧ (∀ c ∈ ver, c ≠ '/') ∧
      (sub = [] ∨ ∃ t, sub = '/' :: t) := by
  unfold parseVersionSub at h
  split at h
  · rename_i hsh
    injection h with h
    injection h with h1 h2
    subst h1
    subst h2
    refine ⟨hsh, ?_, ?_⟩
    · intro c hc
      have := List.mem_takeWhile_imp hc
      simpa using this
    · rcases dropWhile_shape (· != '/') r with hd | ⟨x, t, hd, hx⟩
      · exact Or.inl hd
      · refine Or.inr ⟨t, ?_⟩
        have hx2 : x = '/' := by simpa using hx
        rw [hd, hx2]
  · exact absurd h (by simp)

theorem parseNpm_eq_some {s : List Char} {m : MatchResult}
    (h : parseNpm s = some m) :
    m.name ≠ [] ∧ (∀ c ∈ m.name, c ≠ '@') ∧ isShape m.version = true ∧
      (m.subpath = [] ∨ ∃ t, m.subpath = '/' :: t) := by
  simp only [parseNpm] at h
  by_cases h1 : s.take 4 = "npm:".data
  · rw [if_pos h1] at h
    by_cases h2 : (s.drop 4).takeWhile (· != '@') = []
    · rw [if_pos h2] at h
      exact absurd h (by simp)
    · rw [if_neg h2] at h
      by_cases h3 : ((s.drop 4).dropWhile (· != '@')).head? = some '@'
      · rw [if_pos h3] at h
        split at h
        · rename_i ver sub hvs
          injection h with h
          subst h
          obtain ⟨hsh, _, hsub⟩ := parseVersionSub_eq_some hvs
          refine ⟨h2, ?_, hsh, hsub⟩
          intro c hc
          have := List.mem_takeWhile_imp hc
          simpa using this
        · exact absurd h (by simp)
      · rw [if_neg h3] at h
        exact absurd h (by simp)
  · rw [if_neg h1] at h
    exact absurd h (by simp)

theorem parseJsr_eq_some {s : List Char} {m : MatchResult}
    (h : parseJsr s = some m) :
    (∃ scope pn, m.name = '@' :: (scope ++ '/' :: pn) ∧
      scope ≠ [] ∧ pn ≠ [] ∧
      (∀ c ∈ scope, c ≠ '/' ∧ c ≠ '@') ∧ (∀ c ∈ pn, c ≠ '/' ∧ c ≠ '@')) ∧
    isShape m.version = true ∧ (m.subpath = [] ∨ ∃ t, m.subpath = '/' :: t) := by
  simp only [parseJsr] at h
  by_cases h1 : s.take 5 = "jsr:@".data
  · rw [if_pos h1] at h
    by_cases h2 : (s.drop 5).takeWhile (fun c => c != '/' && c != '@') = []
    · rw [if_pos h2] at h
      exact absurd h (by simp)
    · rw [if_neg h2] at h
      by_cases h3 :
          ((s.drop 5).dropWhile (fun c => c != '/' && c != '@')).head? = some '/'
      · rw [if_pos h3] at h
        by_cases h4 :
            (((s.drop 5).dropWhile (fun c => c != '/' && c != '@')).tail.takeWhile
              (fun c => c != '/' && c != '@')) = []
        · rw [if_pos h4] at h
          exact absurd h (by simp)
        · rw [if_neg h4] at h
          by_cases h5 :
              ((((s.drop 5).dropWhile (fun c => c != '/' && c != '@')).tail.dropWhile
                (fun c => c != '/' && c != '@'))).head? = some '@'
          · rw [if_pos h5] at h
            split at h
            · rename_i ver sub hvs
              injection h with h
              subst h
              obtain ⟨hsh, _, hsub⟩ := parseVersionSub_eq_some hvs
              refine ⟨⟨_, _, rfl, h2, h4, ?_, ?_⟩, hsh, hsub⟩
              · intro c hc
                have := List.mem_takeWhile_imp hc
                rw [Bool.and_eq_true] at this
                exact ⟨by simpa using this.1, by simpa using this.2⟩
              · intro c hc
                have := List.mem_takeWhile_imp hc
                rw [Bool.and_eq_true] at this
                exact ⟨by simpa using this.1, by simpa using this.2⟩
            · exact absurd h (by simp)
          · rw [if_neg h5] at h
            exact absurd h (by simp)
      · rw [if_neg h3] at h
        exact absurd h (by simp)
  · rw [if_neg h1] at h
    exact absurd h (by simp)

/-! Lemmas about the selected candidate version and the final-version
computation. -/

theorem lookupA_mem {n : List Char} {l : List (List Char × List Char)}
    {d : List Char} (h : lookupA n l = some d) :
    ∃ pr, pr ∈ l ∧ pr.2 = d := by
  unfold lookupA at h
  cases hf : l.find? (fun p => p.1 == n) with
  | none => rw [hf] at h; exact absurd h (by simp)
  | some pr =>
    rw [hf] at h
    refine ⟨pr, List.mem_of_find?_eq_some hf, ?_⟩
    simpa using h

theorem pkgVersionOf_slashFree {pkg : PackageJson} {n c : List Char}
    (hall : slashFreeCandidates pkg = true) (h : pkgVersionOf pkg n = some c) :
    ∀ ch ∈ c, ch ≠ '/' := by
  unfold pkgVersionOf at h
  unfold slashFreeCandidates at hall
  rw [List.all_eq_true] at hall
  cases hd : lookupA n pkg.devDependencies with
  | some d =>
    rw [hd] at h
    injection h with h
    subst h
    obtain ⟨pr, hmem, hpr⟩ := lookupA_mem hd
    have h3 := hall pr (List.mem_append.mpr (Or.inl hmem))
    rw [List.all_eq_true] at h3
    intro ch hch
    have h2 := h3 ch (by rw [hpr]; exact hch)
    simpa using h2
  | none =>
    rw [hd] at h
    cases hp : lookupA n pkg.dependencies with
    | some d =>
      rw [hp] at h
      injection h with h
      subst h
      obtain ⟨pr, hmem, hpr⟩ := lookupA_mem hp
      have h3 := hall pr (List.mem_append.mpr (Or.inr hmem))
      rw [List.all_eq_true] at h3
      intro ch hch
      have h2 := h3 ch (by rw [hpr]; exact hch)
      simpa using h2
    | none => rw [hp] at h; exact absurd h (by simp)

theorem finalVersionFor_noSlash (prec : Precision) (c v : List Char)
    (hc : ∀ ch ∈ c, ch ≠ '/') :
    ∀ ch ∈ finalVersionFor prec c v, ch ≠ '/' := by
  intro ch hch
  cases prec with
  | major =>
    simp only [finalVersionFor] at hch
    obtain ⟨s0, ss, hsr⟩ := List.exists_cons_of_ne_nil (splitDots_ne_nil c)
    rw [hsr] at hch
    simp only [List.headD_cons] at hch
    have hs0 : s0 ∈ splitDots c := by rw [hsr]; exact List.mem_cons_self _ _
    exact hc ch (mem_of_mem_splitDots hs0 hch)
  | minor =>
    simp only [finalVersionFor, formatVersion] at hch
    rcases mem_joinDots _ _ hch with rfl | ⟨s, hs, hcs⟩
    · decide
    · have hmem : s ∈ splitDots c := List.take_subset _ _ hs
      exact hc ch (mem_of_mem_splitDots hmem hcs)
  | full =>
    simp only [finalVersionFor] at hch
    exact hc ch hch
  | auto =>
    simp only [finalVersionFor, formatVersion] at hch
    rcases mem_joinDots _ _ hch with rfl | ⟨s, hs, hcs⟩
    · decide
    · have hmem : s ∈ splitDots c := List.take_subset _ _ hs
      exact hc ch (mem_of_mem_splitDots hmem hcs)

theorem take_min_length {α : Type} (l : List α) (p : Nat) :
    l.take (min p l.length) = l.take p := by
  rw [← List.take_take p l.length l, List.take_length l]

theorem splitDots_formatVersion {c : List Char} {p : Nat} (hp : 0 < p) :
    splitDots (formatVersion c p) = (splitDots c).take p := by
  unfold formatVersion
  apply splitDots_joinDots
  · obtain ⟨s0, ss, hsr⟩ := List.exists_cons_of_ne_nil (splitDots_ne_nil c)
    rw [hsr]
    cases p with
    | zero => exact absurd hp (by simp)
    | succ q => simp
  · intro s hs
    exact dot_not_mem_splitDots (List.take_subset _ _ hs)

theorem finalVersionFor_fix {prec : Precision} {c v : List Char}
    (hne : c ≠ finalVersionFor prec c v) :
    finalVersionFor prec c (finalVersionFor prec c v) = finalVersionFor prec c v := by
  cases prec with
  | major => rfl
  | minor => rfl
  | full => exact absurd rfl hne
  | auto =>
    simp only [finalVersionFor, detectVersionPrecision]
    have hp : 0 < (splitDots v).length := List.length_pos.mpr (splitDots_ne_nil v)
    rw [splitDots_formatVersion hp, List.length_take]
    unfold formatVersion
    rw [take_min_length]

/-! Computation lemmas: how the parsers behave on a rebuilt specifier. -/

theorem parseVersionSub_append {f sub : List Char}
    (hf : ∀ c ∈ f, c ≠ '/') (hsub : sub = [] ∨ ∃ t, sub = '/' :: t) :
    parseVersionSub (f ++ sub) = if isShape f then some (f, sub) else none := by
  have hfb : ∀ c ∈ f, (c != '/') = true := fun c hc => by simpa using hf c hc
  have ht : (f ++ sub).takeWhile (· != '/') = f := by
    rw [List.takeWhile_append_of_pos hfb]
    rcases hsub with rfl | ⟨t, rfl⟩ <;> simp
  have hd : (f ++ sub).dropWhile (· != '/') = sub := by
    rw [List.dropWhile_append_of_pos hfb]
    rcases hsub with rfl | ⟨t, rfl⟩ <;> simp
  unfold parseVersionSub
  rw [ht, hd]

theorem parseNpm_rebuilt {name f sub : List Char}
    (hname : name ≠ []) (hat : ∀ c ∈ name, c ≠ '@')
    (hf : ∀ c ∈ f, c ≠ '/') (hsub : sub = [] ∨ ∃ t, sub = '/' :: t) :
    parseNpm ('n' :: 'p' :: 'm' :: ':' :: (name ++ '@' :: (f ++ sub))) =
      if isShape f then some ⟨name, f, sub⟩ else none := by
  have hpre : ('n' :: 'p' :: 'm' :: ':' :: (name ++ '@' :: (f ++ sub))).take 4 =
      "npm:".data := rfl
  have hdrop4 : ('n' :: 'p' :: 'm' :: ':' :: (name ++ '@' :: (f ++ sub))).drop 4 =
      name ++ '@' :: (f ++ sub) := rfl
  have hatb : ∀ c ∈ name, (c != '@') = true := fun c hc => by simpa using hat c hc
  have htake : (name ++ '@' :: (f ++ sub)).takeWhile (· != '@') = name := by
    rw [List.takeWhile_append_of_pos hatb]
    simp
  have hdropw : (name ++ '@' :: (f ++ sub)).dropWhile (· != '@') = '@' :: (f ++ sub) := by
    rw [List.dropWhile_append_of_pos hatb]
    simp
  have hps := parseVersionSub_append hf hsub
  simp only [parseNpm, hpre, hdrop4, htake, hdropw, if_pos rfl]
  rw [if_neg hname]
  simp only [List.head?_cons, if_pos rfl, List.tail_cons, hps]
  cases hsh : isShape f with
  | false => simp [hsh]
  | true => simp [hsh]

theorem parseJsr_rebuilt {scope pn f sub : List Char}
    (hsne : scope ≠ []) (hpne : pn ≠ [])
    (hsc : ∀ c ∈ scope, c ≠ '/' ∧ c ≠ '@') (hpc : ∀ c ∈ pn, c ≠ '/' ∧ c ≠ '@')
    (hf : ∀ c ∈ f, c ≠ '/') (hsub : sub = [] ∨ ∃ t, sub = '/' :: t) :
    parseJsr ('j' :: 's' :: 'r' :: ':' :: '@' ::
        (scope ++ '/' :: (pn ++ '@' :: (f ++ sub)))) =
      if isShape f then some ⟨'@' :: (scope ++ '/' :: pn), f, sub⟩ else none := by
  have hscb : ∀ c ∈ scope, (c != '/' && c != '@') = true := by
    intro c hc
    obtain ⟨h1, h2⟩ := hsc c hc
    simp [h1, h2]
  have hpcb : ∀ c ∈ pn, (c != '/' && c != '@') = true := by
    intro c hc
    obtain ⟨h1, h2⟩ := hpc c hc
    simp [h1, h2]
  have hpre : ('j' :: 's' :: 'r' :: ':' :: '@' ::
      (scope ++ '/' :: (pn ++ '@' :: (f ++ sub)))).take 5 = "jsr:@".data := rfl
  have hdrop5 : ('j' :: 's' :: 'r' :: ':' :: '@' ::
      (scope ++ '/' :: (pn ++ '@' :: (f ++ sub)))).drop 5 =
      scope ++ '/' :: (pn ++ '@' :: (f ++ sub)) := rfl
  have htake1 : (scope ++ '/' :: (pn ++ '@' :: (f ++ sub))).takeWhile
      (fun c => c != '/' && c != '@') = scope := by
    rw [List.takeWhile_append_of_pos hscb]
    simp
  have hdrop1 : (scope ++ '/' :: (pn ++ '@' :: (f ++ sub))).dropWhile
      (fun c => c != '/' && c != '@') = '/' :: (pn ++ '@' :: (f ++ sub)) := by
    rw [List.dropWhile_append_of_pos hscb]
    simp
  have htake2 : (pn ++ '@' :: (f ++ sub)).takeWhile
      (fun c => c != '/' && c != '@') = pn := by
    rw [List.takeWhile_append_of_pos hpcb]
    simp
  have hdrop2 : (pn ++ '@' :: (f ++ sub)).dropWhile
      (fun c => c != '/' && c != '@') = '@' :: (f ++ sub) := by
    rw [List.dropWhile_append_of_pos hpcb]
    simp
  have hps := parseVersionSub_append hf hsub
  simp only [parseJsr, hpre, hdrop5, htake1, hdrop1, htake2, hdrop2, if_pos rfl]
  rw [if_neg hsne]
  simp only [List.head?_cons, if_pos rfl, List.tail_cons, htake2, hdrop2]
  rw [if_neg hpne]
  simp only [List.head?_cons, if_pos rfl, List.tail_cons, hps]
  cases hsh : isShape f with
  | false => simp [hsh]
  | true => simp [hsh]

theorem parseJsr_npm_header (X : List Char) : parseJsr ('n' :: X) = none := by
  unfold parseJsr
  rw [if_neg]
  intro h
  injection h with h1 _
  exact absurd h1 (by decide)

theorem parseNpm_jsr_header (X : List Char) : parseNpm ('j' :: X) = none := by
  unfold parseNpm
  rw [if_neg]
  intro h
  injection h with h1 _
  exact absurd h1 (by decide)

/-! Lemmas about processImport and the per-entry step. -/

theorem processImport_eq_some {s : List Char} {reg : Registry} {pkg : PackageJson}
    {prec : Precision} {ni : List Char} {u : Update}
    (h : processImport s reg pkg prec = some (ni, u)) :
    ∃ m c, parseSpecifier reg s = some m ∧ pkgVersionOf pkg m.name = some c ∧
      c ≠ m.version ∧ finalVersionFor prec c m.version ≠ m.version ∧
      ni = regHeader reg ++ (m.name ++ '@' :: (finalVersionFor prec c m.version ++ m.subpath)) ∧
      u = ⟨m.name, m.version, finalVersionFor prec c m.version⟩ := by
  simp only [processImport] at h
  split at h
  · exact absurd h (by simp)
  · rename_i m hm
    split at h
    · exact absurd h (by simp)
    · rename_i c hc
      split at h
      · exact absurd h (by simp)
      · rename_i hcv
        split at h
        · exact absurd h (by simp)
        · rename_i hfv
          injection h with h
          have h1 := congrArg Prod.fst h
          have h2 := congrArg Prod.snd h
          simp only at h1 h2
          exact ⟨m, c, hm, hc, hcv, hfv, h1.symm, h2.symm⟩

theorem processImport_parse_none {s : List Char} {reg : Registry}
    {pkg : PackageJson} {prec : Precision}
    (h : parseSpecifier reg s = none) : processImport s reg pkg prec = none := by
  simp [processImport, h]

theorem processImport_none_of_fix (s : List Char) (reg : Registry)
    (pkg : PackageJson) (prec : Precision) (m : MatchResult) (c : List Char)
    (hm : parseSpecifier reg s = some m) (hc : pkgVersionOf pkg m.name = some c)
    (hfix : c = m.version ∨ finalVersionFor prec c m.version = m.version) :
    processImport s reg pkg prec = none := by
  simp only [processImport, hm, hc]
  rcases hfix with h | h
  · rw [if_pos h]
  · by_cases h2 : c = m.version
    · rw [if_pos h2]
    · rw [if_neg h2, if_pos h]

/-- The value a rewritten entry holds is itself left unchanged by the
per-entry step: the specifier rebuilt from a slash-free candidate either
no longer matches any dialect or matches with a version whose recomputed
final version is itself, so no further update fires. -/
theorem stepEntry_fix (pkg : PackageJson) (prec : Precision)
    (hall : slashFreeCandidates pkg = true) (v : List Char) :
    stepEntry pkg prec (stepEntry pkg prec v).1 = ((stepEntry pkg prec v).1, none) := by
  cases hnpm : processImport v .npm pkg prec with
  | some p =>
    obtain ⟨ni, u⟩ := p
    have hstep : stepEntry pkg prec v = (ni, some u) := by simp [stepEntry, hnpm]
    rw [hstep]
    obtain ⟨m, c, hm, hc, hcv, hfv, hni, hu⟩ := processImport_eq_some hnpm
    obtain ⟨hname, hat, hshv, hsubsh⟩ :=
      parseNpm_eq_some (by simpa [parseSpecifier] using hm)
    have hcs := pkgVersionOf_slashFree hall hc
    have hfs := finalVersionFor_noSlash prec c m.version hcs
    have hni2 : ni = 'n' :: 'p' :: 'm' :: ':' ::
        (m.name ++ '@' :: (finalVersionFor prec c m.version ++ m.subpath)) := by
      rw [hni]; simp [regHeader]
    have hrebuilt := parseNpm_rebuilt hname hat hfs hsubsh
    cases hsh : isShape (finalVersionFor prec c m.version) with
    | false =>
      have hpn : parseNpm ni = none := by
        rw [hni2, hrebuilt, if_neg]
        simp [hsh]
      have h1 : processImport ni .npm pkg prec = none :=
        processImport_parse_none (by simpa [parseSpecifier] using hpn)
      have h2 : processImport ni .jsr pkg prec = none := by
        apply processImport_parse_none
        rw [hni2]
        simpa [parseSpecifier] using parseJsr_npm_header _
      simp [stepEntry, h1, h2]
    | true =>
      have hpn : parseNpm ni =
          some ⟨m.name, finalVersionFor prec c m.version, m.subpath⟩ := by
        rw [hni2, hrebuilt, if_pos hsh]
      have h1 : processImport ni .npm pkg prec = none := by
        apply processImport_none_of_fix ni .npm pkg prec
          ⟨m.name, finalVersionFor prec c m.version, m.subpath⟩ c
        · simpa [parseSpecifier] using hpn
        · exact hc
        · by_cases hcf : c = finalVersionFor prec c m.version
          · exact Or.inl hcf
          · exact Or.inr (finalVersionFor_fix hcf)
      have h2 : processImport ni .jsr pkg prec = none := by
        apply processImport_parse_none
        rw [hni2]
        simpa [parseSpecifier] using parseJsr_npm_header _
      simp [stepEntry, h1, h2]
  | none =>
    cases hjsr : processImport v .jsr pkg prec with
    | none =>
      have hstep : stepEntry pkg prec v = (v, none) := by simp [stepEntry, hnpm, hjsr]
      rw [hstep]
      simp [stepEntry, hnpm, hjsr]
    | some p =>
      obtain ⟨ni, u⟩ := p
      have hstep : stepEntry pkg prec v = (ni, some u) := by simp [stepEntry, hnpm, hjsr]
      rw [hstep]
      obtain ⟨m, c, hm, hc, hcv, hfv, hni, hu⟩ := processImport_eq_some hjsr
      obtain ⟨⟨scope, pn, hnameeq, hsne, hpne, hsc, hpc⟩, hshv, hsubsh⟩ :=
        parseJsr_eq_some (by simpa [parseSpecifier] using hm)
      have hcs := pkgVersionOf_slashFree hall hc
      have hfs := finalVersionFor_noSlash prec c m.version hcs
      have hni2 : ni = 'j' :: 's' :: 'r' :: ':' :: '@' ::
          (scope ++ '/' :: (pn ++ '@' :: (finalVersionFor prec c m.version ++ m.subpath))) := by
        rw [hni, hnameeq]; simp [regHeader]
      have hrebuilt := parseJsr_rebuilt hsne hpne hsc hpc hfs hsubsh
      cases hsh : isShape (finalVersionFor prec c m.version) with
      | false =>
        have hpj : parseJsr ni = none := by
          rw [hni2, hrebuilt, if_neg]
          simp [hsh]
        have h1 : processImport ni .npm pkg prec = none := by
          apply processImport_parse_none
          rw [hni2]
          simpa [parseSpecifier] using parseNpm_jsr_header _
        have h2 : processImport ni .jsr pkg prec = none :=
          processImport_parse_none (by simpa [parseSpecifier] using hpj)
        simp [stepEntry, h1, h2]
      | true =>
        have hpj : parseJsr ni =
            some ⟨'@' :: (scope ++ '/' :: pn), finalVersionFor prec c m.version,
              m.subpath⟩ := by
          rw [hni2, hrebuilt, if_pos hsh]
        have h1 : processImport ni .npm pkg prec = none := by
          apply processImport_parse_none
          rw [hni2]
          simpa [parseSpecifier] using parseNpm_jsr_header _
        have h2 : processImport ni .jsr pkg prec = none := by
          apply processImport_none_of_fix ni .jsr pkg prec
            ⟨'@' :: (scope ++ '/' :: pn), finalVersionFor prec c m.version, m.subpath⟩ c
          · simpa [parseSpecifier] using hpj
          · show pkgVersionOf pkg ('@' :: (scope ++ '/' :: pn)) = some c
            rw [← hnameeq]
            exact hc
          · by_cases hcf : c = finalVersionFor prec c m.version
            · exact Or.inl hcf
            · exact Or.inr (finalVersionFor_fix hcf)
        simp [stepEntry, h1, h2]

/-- Applying the sync pass to its own output changes nothing and
records nothing, provided every stripped manifest range is free of
slashes. -/
theorem sync_stable (pkg : PackageJson) (prec : Precision)
    (hall : slashFreeCandidates pkg = true) (imports : ImportMap) :
    syncImports pkg prec (syncImports pkg prec imports) = syncImports pkg prec imports ∧
    syncUpdates pkg prec (syncImports pkg prec imports) = [] := by
  induction imports with
  | nil => simp [syncImports, syncUpdates]
  | cons e t ih =>
    obtain ⟨ih1, ih2⟩ := ih
    have hfix := stepEntry_fix pkg prec hall e.2
    have h1 : (stepEntry pkg prec ((stepEntry pkg prec e.2).1)).1 =
        (stepEntry pkg prec e.2).1 := by rw [hfix]
    have h2 : (stepEntry pkg prec ((stepEntry pkg prec e.2).1)).2 = none := by
      rw [hfix]
    constructor
    · simp only [syncImports, List.map_cons] at ih1 ⊢
      rw [h1, ih1]
    · simp only [syncUpdates, syncImports, List.map_cons, List.filterMap_cons, h2]
      simp only [syncUpdates, syncImports] at ih2
      exact ih2

theorem specFinalVersion_eq (prec : Precision) (c v : List Char) :
    specFinalVersion prec c v = finalVersionFor prec c v := by
  cases prec with
  | major =>
    simp only [specFinalVersion, finalVersionFor]
    obtain ⟨s0, ss, hsr⟩ := List.exists_cons_of_ne_nil (splitDots_ne_nil c)
    rw [hsr]
    simp [joinDots]
  | minor => rfl
  | full => rfl
  | auto => rfl

/-! Claim theorems. -/

/-- Claim C1, behavior of the code at the claimed scenario: for the
import-map document with the single entry zod mapped to npm:zod@3.21.0 and the
manifest declaring zod as a catalog reference, the sync engine never
consults the catalog resolver; it strips the whole reference to the
empty candidate and rewrites the entry to the truncated specifier
npm:zod@ with a change record whose new version is empty — not the
claimed 3.22.0 update.  The last two conjuncts show that the resolver
module itself (with pnpm detected and the workspace catalog mapping zod
to the caret range 3.22.0) would have produced the range whose stripped
form is 3.22.0, as the claim and the test suite of the repository
expect. -/
theorem c1_catalog_scenario :
    syncUpdates ⟨[("zod".data, "catalog:".data)], []⟩ .auto
        [("zod".data, "npm:zod@3.21.0".data)] =
      [⟨"zod".data, "3.21.0".data, []⟩] ∧
    syncImports ⟨[("zod".data, "catalog:".data)], []⟩ .auto
        [("zod".data, "npm:zod@3.21.0".data)] =
      [("zod".data, "npm:zod@".data)] ∧
    resolveVersion "catalog:".data "zod".data (some "pnpm".data)
        (some ⟨some [("zod".data, "^3.22.0".data)], none⟩) =
      some "^3.22.0".data ∧
    stripLeadingNonDigits "^3.22.0".data = "3.22.0".data := by
  decide

/-- Claim C2, behavior of the code on an unresolvable catalog
reference: the resolver would fail (the detected manager is not pnpm
and no workspace document exists), so the claim demands the entry be
left unchanged with no change record; the engine instead rewrites the
entry to npm:zod@ and records a change with an empty new version.  The
run does continue to the following entry (lodash is still processed),
but the catalog entry is not left unchanged, contradicting the
claim. -/
theorem c2_unresolvable_catalog :
    resolveVersion "catalog:dev".data "zod".data (some "npm".data) none = none ∧
    syncUpdates
        ⟨[("zod".data, "catalog:dev".data), ("lodash".data, "^4.17.21".data)], []⟩
        .auto
        [("zod".data, "npm:zod@3.21.0".data),
         ("lodash".data, "npm:lodash@4.17.0".data)] =
      [⟨"zod".data, "3.21.0".data, []⟩,
       ⟨"lodash".data, "4.17.0".data, "4.17.21".data⟩] ∧
    syncImports
        ⟨[("zod".data, "catalog:dev".data), ("lodash".data, "^4.17.21".data)], []⟩
        .auto
        [("zod".data, "npm:zod@3.21.0".data),
         ("lodash".data, "npm:lodash@4.17.0".data)] =
      [("zod".data, "npm:zod@".data),
       ("lodash".data, "npm:lodash@4.17.21".data)] := by
  decide

/-- Claim C3, counterexample to the stated upper bound of three
segments: the specifier npm:a@1.2.3.4 carries a four-segment version,
yet it matches the npm dialect and is rewritten, and its change record
appears in the result, so a specifier with more than three segments is
neither rejected nor left untouched. -/
theorem c3_counterexample :
    parseNpm "npm:a@1.2.3.4".data =
      some ⟨"a".data, "1.2.3.4".data, []⟩ ∧
    (splitDots "1.2.3.4".data).length = 4 ∧
    syncUpdates ⟨[("a".data, "^1.2.3.5".data)], []⟩ .full
        [("a".data, "npm:a@1.2.3.4".data)] =
      [⟨"a".data, "1.2.3.4".data, "1.2.3.5".data⟩] ∧
    syncImports ⟨[("a".data, "^1.2.3.5".data)], []⟩ .full
        [("a".data, "npm:a@1.2.3.4".data)] =
      [("a".data, "npm:a@1.2.3.5".data)] := by
  decide

/-- Claim C3 as amended: a specifier matches a recognized dialect only
if its embedded version consists of one or more dot-separated
non-negative integer segments (there is no upper bound of three);
specifiers failing both dialects — in particular those whose version
carries a pre-release or build-metadata suffix — are left untouched by
the per-entry step and contribute no change record. -/
theorem c3_version_shape (reg : Registry) (s v : List Char) (m : MatchResult)
    (pkg : PackageJson) (prec : Precision)
    (hs : parseSpecifier reg s = some m)
    (hn : parseNpm v = none) (hj : parseJsr v = none) :
    isShape m.version = true ∧ stepEntry pkg prec v = (v, none) := by
  constructor
  · cases reg with
    | npm => exact (parseNpm_eq_some (by simpa [parseSpecifier] using hs)).2.2.1
    | jsr => exact (parseJsr_eq_some (by simpa [parseSpecifier] using hs)).2.1
  · have e1 : processImport v .npm pkg prec = none :=
      processImport_parse_none (by simpa [parseSpecifier] using hn)
    have e2 : processImport v .jsr pkg prec = none :=
      processImport_parse_none (by simpa [parseSpecifier] using hj)
    simp [stepEntry, e1, e2]

/-- Witness for the amended claim C3 at a four-segment specifier and a
pre-release specifier. -/
theorem c3_version_shape_witness :
    parseSpecifier .npm "npm:a@1.2.3.4".data =
      some ⟨"a".data, "1.2.3.4".data, []⟩ ∧
    parseNpm "npm:b@1.0.0-rc.1".data = none ∧
    parseJsr "npm:b@1.0.0-rc.1".data = none ∧
    (isShape "1.2.3.4".data = true ∧
      stepEntry ⟨[], []⟩ .auto "npm:b@1.0.0-rc.1".data =
        ("npm:b@1.0.0-rc.1".data, none)) :=
  ⟨by decide, by decide, by decide,
   c3_version_shape .npm "npm:a@1.2.3.4".data "npm:b@1.0.0-rc.1".data
     ⟨"a".data, "1.2.3.4".data, []⟩ ⟨[], []⟩ .auto
     (by decide) (by decide) (by decide)⟩

/-- Claim C5, counterexample to unrestricted idempotence: with the
manifest range 1.2.3/x (a legal JSON string whose stripped candidate
contains a slash), the first run rewrites npm:a@1.0.0 to
npm:a@1.2.3/x; that output re-matches with version 1.2.3 and subpath
/x, so the second run performs another update (and rewrites the
document again), contradicting the claim that a second run always
reports no updates and leaves the document byte-identical. -/
theorem c5_counterexample :
    syncImports ⟨[("a".data, "1.2.3/x".data)], []⟩ .auto
        [("a".data, "npm:a@1.0.0".data)] =
      [("a".data, "npm:a@1.2.3/x".data)] ∧
    syncUpdates ⟨[("a".data, "1.2.3/x".data)], []⟩ .auto
        (syncImports ⟨[("a".data, "1.2.3/x".data)], []⟩ .auto
          [("a".data, "npm:a@1.0.0".data)]) =
      [⟨"a".data, "1.2.3".data, "1.2.3/x".data⟩] ∧
    syncImports ⟨[("a".data, "1.2.3/x".data)], []⟩ .auto
        (syncImports ⟨[("a".data, "1.2.3/x".data)], []⟩ .auto
          [("a".data, "npm:a@1.0.0".data)]) =
      [("a".data, "npm:a@1.2.3/x/x".data)] := by
  decide

/-- Claim C5 as amended: whenever every manifest range, once its
leading non-digit prefix is stripped, contains no slash, syncing is
idempotent — running the engine on the output of a first run changes no
entry, returns an empty change list with the updated flag false, and
does not rewrite the document, so the content on disk stays
byte-identical after the first and the second run. -/
theorem c5_idempotent_slashFree (pkg : PackageJson) (prec : Precision)
    (imports : ImportMap) (pkgPath denoPath : List Char)
    (hall : slashFreeCandidates pkg = true) :
    syncImports pkg prec (syncImports pkg prec imports) =
      syncImports pkg prec imports ∧
    syncUpdates pkg prec (syncImports pkg prec imports) = [] ∧
    syncDenoNpmDependencies pkgPath denoPath (some pkg)
        (some (syncImports pkg prec imports)) prec =
      .ok ⟨⟨false, []⟩, none⟩ := by
  obtain ⟨h1, h2⟩ := sync_stable pkg prec hall imports
  refine ⟨h1, h2, ?_⟩
  simp [syncDenoNpmDependencies, h2]

/-- Witness for the amended claim C5 at a concrete slash-free
manifest. -/
theorem c5_idempotent_slashFree_witness :
    slashFreeCandidates ⟨[("lodash".data, "^4.17.21".data)], []⟩ = true ∧
    (syncImports ⟨[("lodash".data, "^4.17.21".data)], []⟩ .auto
        (syncImports ⟨[("lodash".data, "^4.17.21".data)], []⟩ .auto
          [("lodash".data, "npm:lodash@4.17.0".data)]) =
      syncImports ⟨[("lodash".data, "^4.17.21".data)], []⟩ .auto
        [("lodash".data, "npm:lodash@4.17.0".data)] ∧
    syncUpdates ⟨[("lodash".data, "^4.17.21".data)], []⟩ .auto
        (syncImports ⟨[("lodash".data, "^4.17.21".data)], []⟩ .auto
          [("lodash".data, "npm:lodash@4.17.0".data)]) = [] ∧
    syncDenoNpmDependencies "p".data "d".data
        (some ⟨[("lodash".data, "^4.17.21".data)], []⟩)
        (some (syncImports ⟨[("lodash".data, "^4.17.21".data)], []⟩ .auto
          [("lodash".data, "npm:lodash@4.17.0".data)])) .auto =
      .ok ⟨⟨false, []⟩, none⟩) :=
  ⟨by decide,
   c5_idempotent_slashFree ⟨[("lodash".data, "^4.17.21".data)], []⟩ .auto
     [("lodash".data, "npm:lodash@4.17.0".data)] "p".data "d".data (by decide)⟩

/-- Claim C4: for every matched entry with a resolved candidate, the
final version is computed exactly as the specification words it (major
keeps the first segment, minor the first two with no padding, full the
whole candidate, auto truncates to the segment count of the embedded
version), and whenever that computed final version equals the embedded
version the entry produces no change record; when an update is
produced, its record carries the matched name, the embedded version as
the old version and the computed final version as the new one. -/
theorem c4_precision_policy (reg : Registry) (s : List Char) (m : MatchResult)
    (pkg : PackageJson) (prec : Precision) (c : List Char)
    (hs : parseSpecifier reg s = some m) (hc : pkgVersionOf pkg m.name = some c) :
    (specFinalVersion prec c m.version = m.version →
      processImport s reg pkg prec = none) ∧
    (∀ ni u, processImport s reg pkg prec = some (ni, u) →
      u.newVersion = specFinalVersion prec c m.version ∧
      u.oldVersion = m.version ∧ u.name = m.name) := by
  constructor
  · intro hfv
    rw [specFinalVersion_eq] at hfv
    exact processImport_none_of_fix s reg pkg prec m c hs hc (Or.inr hfv)
  · intro ni u h
    obtain ⟨m2, c2, hm2, hc2, _, _, _, hu⟩ := processImport_eq_some h
    rw [hs] at hm2
    injection hm2 with hm2
    subst hm2
    rw [hc] at hc2
    injection hc2 with hc2
    subst hc2
    subst hu
    rw [specFinalVersion_eq]
    exact ⟨rfl, rfl, rfl⟩

/-- Witness for claim C4 at a concrete matched entry in auto mode. -/
theorem c4_precision_policy_witness :
    parseSpecifier .npm "npm:lodash@4.17.0".data =
      some ⟨"lodash".data, "4.17.0".data, []⟩ ∧
    pkgVersionOf ⟨[("lodash".data, "^4.17.21".data)], []⟩ "lodash".data =
      some "4.17.21".data ∧
    ((⟨"lodash".data, "4.17.0".data, "4.17.21".data⟩ : Update).newVersion =
      specFinalVersion .auto "4.17.21".data "4.17.0".data ∧
     (⟨"lodash".data, "4.17.0".data, "4.17.21".data⟩ : Update).oldVersion =
      "4.17.0".data ∧
     (⟨"lodash".data, "4.17.0".data, "4.17.21".data⟩ : Update).name =
      "lodash".data) :=
  ⟨by decide, by decide,
   (c4_precision_policy .npm "npm:lodash@4.17.0".data
      ⟨"lodash".data, "4.17.0".data, []⟩
      ⟨[("lodash".data, "^4.17.21".data)], []⟩ .auto "4.17.21".data
      (by decide) (by decide)).2
     "npm:lodash@4.17.21".data
     ⟨"lodash".data, "4.17.0".data, "4.17.21".data⟩ (by decide)⟩

/-- Claim C6: when the matched package name is declared in the
development section of the manifest, the regular section is irrelevant
to the outcome (development wins); when the name is declared in
neither section, the entry produces no rewrite and no record. -/
theorem c6_dev_wins (reg : Registry) (s : List Char) (m : MatchResult)
    (prec : Precision) (deps devs : List (List Char × List Char)) (d : List Char)
    (hs : parseSpecifier reg s = some m) :
    (lookupA m.name devs = some d →
      processImport s reg ⟨deps, devs⟩ prec = processImport s reg ⟨[], devs⟩ prec) ∧
    (lookupA m.name devs = none → lookupA m.name deps = none →
      processImport s reg ⟨deps, devs⟩ prec = none) := by
  constructor
  · intro hd
    have h1 : pkgVersionOf ⟨deps, devs⟩ m.name = pkgVersionOf ⟨[], devs⟩ m.name := by
      simp [pkgVersionOf, hd]
    simp only [processImport, hs, h1]
  · intro hdv hdp
    have h1 : pkgVersionOf ⟨deps, devs⟩ m.name = none := by
      simp [pkgVersionOf, hdv, hdp]
    simp [processImport, hs, h1]

/-- Witness for claim C6: with typescript declared in both sections the
regular declaration is irrelevant, and a package absent from both
sections yields no update. -/
theorem c6_dev_wins_witness :
    parseSpecifier .npm "npm:typescript@4.9.0".data =
      some ⟨"typescript".data, "4.9.0".data, []⟩ ∧
    (processImport "npm:typescript@4.9.0".data .npm
        ⟨[("typescript".data, "^9.9.9".data)],
         [("typescript".data, "^5.0.0".data)]⟩ .auto =
      processImport "npm:typescript@4.9.0".data .npm
        ⟨[], [("typescript".data, "^5.0.0".data)]⟩ .auto) ∧
    processImport "npm:typescript@4.9.0".data .npm
        ⟨[("lodash".data, "^4.17.21".data)], []⟩ .auto = none :=
  ⟨by decide,
   (c6_dev_wins .npm "npm:typescript@4.9.0".data
      ⟨"typescript".data, "4.9.0".data, []⟩ .auto
      [("typescript".data, "^9.9.9".data)]
      [("typescript".data, "^5.0.0".data)] "^5.0.0".data (by decide)).1
     (by decide),
   (c6_dev_wins .npm "npm:typescript@4.9.0".data
      ⟨"typescript".data, "4.9.0".data, []⟩ .auto
      [("lodash".data, "^4.17.21".data)] [] [] (by decide)).2
     (by decide) (by decide)⟩

/-- Claim C7: with the manifest file absent at its resolved path the
run fails with the manifest-not-found error naming that path, whatever
the import-map file holds, and with the manifest present but the map
file absent it fails with the analogous error naming the map path; in
either fatal case no successful outcome (hence no
write of the import-map document) is possible, and the failure is
decided before any entry is processed since the error does not depend
on the documents. -/
theorem c7_missing_files (pkgPath denoPath : List Char) (prec : Precision) :
    (∀ denoFile, syncDenoNpmDependencies pkgPath denoPath none denoFile prec =
      .error ("package.json not found at: ".data ++ pkgPath)) ∧
    (∀ pkg, syncDenoNpmDependencies pkgPath denoPath (some pkg) none prec =
      .error ("deno.json not found at: ".data ++ denoPath)) ∧
    (∀ denoFile o, syncDenoNpmDependencies pkgPath denoPath none denoFile prec ≠
      .ok o) ∧
    (∀ pkg o, syncDenoNpmDependencies pkgPath denoPath (some pkg) none prec ≠
      .ok o) := by
  refine ⟨fun denoFile => rfl, fun pkg => rfl, ?_, ?_⟩
  · intro denoFile o h
    simp [syncDenoNpmDependencies] at h
  · intro pkg o h
    simp [syncDenoNpmDependencies] at h

/-- Claim C8: when no entry changed the document is not rewritten (the
written component of the outcome is empty and the result reports no
updates), and an entry whose specifier matches neither dialect keeps
its exact value in the output document and contributes nothing to the
change list, wherever it sits in the map. -/
theorem c8_frame (pkg : PackageJson) (prec : Precision)
    (imports pre post : ImportMap) (k v pkgPath denoPath : List Char)
    (hn : parseNpm v = none) (hj : parseJsr v = none) :
    (syncUpdates pkg prec imports = [] →
      syncDenoNpmDependencies pkgPath denoPath (some pkg) (some imports) prec =
        .ok ⟨⟨false, []⟩, none⟩) ∧
    syncImports pkg prec (pre ++ (k, v) :: post) =
      syncImports pkg prec pre ++ (k, v) :: syncImports pkg prec post ∧
    syncUpdates pkg prec (pre ++ (k, v) :: post) =
      syncUpdates pkg prec pre ++ syncUpdates pkg prec post := by
  have e1 : processImport v .npm pkg prec = none :=
    processImport_parse_none (by simpa [parseSpecifier] using hn)
  have e2 : processImport v .jsr pkg prec = none :=
    processImport_parse_none (by simpa [parseSpecifier] using hj)
  have hstep : stepEntry pkg prec v = (v, none) := by
    simp [stepEntry, e1, e2]
  refine ⟨?_, ?_, ?_⟩
  · intro h
    simp [syncDenoNpmDependencies, h]
  · simp [syncImports, hstep]
  · simp [syncUpdates, hstep]

/-- Witness for claim C8 at a bare URL specifier sitting between two
npm entries of an already synced map. -/
theorem c8_frame_witness :
    parseNpm "https://example.com/module.ts".data = none ∧
    parseJsr "https://example.com/module.ts".data = none ∧
    syncDenoNpmDependencies "p".data "d".data
        (some ⟨[("lodash".data, "^4.17.21".data)], []⟩)
        (some [("lodash".data, "npm:lodash@4.17.21".data),
               ("u".data, "https://example.com/module.ts".data)]) .auto =
      .ok ⟨⟨false, []⟩, none⟩ ∧
    syncImports ⟨[("lodash".data, "^4.17.21".data)], []⟩ .auto
        ([("lodash".data, "npm:lodash@4.17.21".data)] ++
          ("u".data, "https://example.com/module.ts".data) :: []) =
      syncImports ⟨[("lodash".data, "^4.17.21".data)], []⟩ .auto
          [("lodash".data, "npm:lodash@4.17.21".data)] ++
        ("u".data, "https://example.com/module.ts".data) ::
          syncImports ⟨[("lodash".data, "^4.17.21".data)], []⟩ .auto [] :=
  ⟨by decide, by decide,
   (c8_frame ⟨[("lodash".data, "^4.17.21".data)], []⟩ .auto
      [("lodash".data, "npm:lodash@4.17.21".data),
       ("u".data, "https://example.com/module.ts".data)]
      [("lodash".data, "npm:lodash@4.17.21".data)] []
      "u".data "https://example.com/module.ts".data "p".data "d".data
      (by decide) (by decide)).1 (by decide),
   (c8_frame ⟨[("lodash".data, "^4.17.21".data)], []⟩ .auto
      [] [("lodash".data, "npm:lodash@4.17.21".data)] []
      "u".data "https://example.com/module.ts".data "p".data "d".data
      (by decide) (by decide)).2.1⟩

/-- Claim C9: resolveVersion passes any non-catalog range through
unchanged; on a catalog reference it returns none whenever the detected
package manager is not pnpm (including failed detection); and with pnpm
detected it delegates to the catalog lookup for the parsed catalog
name. -/
theorem c9_resolveVersion_dispatch (version packageName : List Char)
    (pm : Option (List Char)) (yaml : Option PnpmWorkspaceYaml) :
    (version.take 8 ≠ "catalog:".data →
      resolveVersion version packageName pm yaml = some version) ∧
    (version.take 8 = "catalog:".data → pm ≠ some "pnpm".data →
      resolveVersion version packageName pm yaml = none) ∧
    (∀ cname, parseCatalogReference version = some cname →
      resolveVersion version packageName (some "pnpm".data) yaml =
        resolvePnpmCatalog packageName cname yaml) := by
  refine ⟨?_, ?_, ?_⟩
  · intro h
    have hp : parseCatalogReference version = none := by
      simp [parseCatalogReference, h]
    simp [resolveVersion, hp]
  · intro h hpm
    have hp : parseCatalogReference version =
        some (if trimChars (version.drop 8) = [] then "default".data
              else trimChars (version.drop 8)) := by
      simp [parseCatalogReference, h]
    simp [resolveVersion, hp, hpm]
  · intro cname hcn
    simp [resolveVersion, hcn]

/-- Witness for claim C9 at a plain caret range, a catalog reference
under the npm manager, and a named catalog reference under pnpm. -/
theorem c9_resolveVersion_dispatch_witness :
    resolveVersion "^3.0.0".data "zod".data none none = some "^3.0.0".data ∧
    resolveVersion "catalog:".data "zod".data (some "npm".data)
        (some ⟨some [("zod".data, "^3.22.0".data)], none⟩) = none ∧
    resolveVersion "catalog:dev".data "typescript".data (some "pnpm".data)
        (some ⟨none, some [("dev".data, [("typescript".data, "^5.0.0".data)])]⟩) =
      resolvePnpmCatalog "typescript".data "dev".data
        (some ⟨none, some [("dev".data, [("typescript".data, "^5.0.0".data)])]⟩) :=
  ⟨(c9_resolveVersion_dispatch "^3.0.0".data "zod".data none none).1 (by decide),
   (c9_resolveVersion_dispatch "catalog:".data "zod".data (some "npm".data)
      (some ⟨some [("zod".data, "^3.22.0".data)], none⟩)).2.1
     (by decide) (by decide),
   (c9_resolveVersion_dispatch "catalog:dev".data "typescript".data
      (some "pnpm".data)
      (some ⟨none, some [("dev".data, [("typescript".data, "^5.0.0".data)])]⟩)).2.2
     "dev".data (by decide)⟩

/-- Claim C10: the upward walk stops as soon as the current directory
is the filesystem root without testing it, so whenever the workspace
catalog document exists only in the root directory, the search returns
none from every starting path; in particular it returns none when
started at the root itself, whatever the filesystem holds. -/
theorem c10_root_never_tested (hasYaml : List (List Char) → Bool)
    (start : List (List Char))
    (honly : ∀ p, hasYaml p = true → p = []) :
    findWorkspaceRoot hasYaml start = none ∧
    findWorkspaceRoot hasYaml [] = none := by
  constructor
  · induction start with
    | nil => rfl
    | cons c cs ih =>
      simp only [findWorkspaceRoot]
      cases hy : hasYaml (c :: cs) with
      | true => exact absurd (honly _ hy) (by simp)
      | false =>
        rw [if_neg (by simp [hy])]
        exact ih
  · rfl

/-- Witness for claim C10 with a filesystem whose only catalog document
sits in the root directory. -/
theorem c10_root_never_tested_witness :
    findWorkspaceRoot (fun p => p.isEmpty) ["user".data, "home".data] = none ∧
    findWorkspaceRoot (fun p => p.isEmpty) [] = none :=
  c10_root_never_tested (fun p => p.isEmpty) ["user".data, "home".data]
    (by
      intro p hp
      cases p with
      | nil => rfl
      | cons c cs => simp at hp)

end DenoNpmSync
